import Mathlib

/-!
Shallow embedding of the cache simulator `csim.c` (set-associative, LRU
replacement, write-back / write-allocate) and proofs of the specified
properties.

Modelling conventions:
* C `long` (the trace address and the stored tag) is a signed 64-bit
  integer; it is modelled as `Int`, and the C right shift `>>` on a
  (possibly negative) `long` is the arithmetic shift, i.e. floor
  division by a power of two (gcc's documented behaviour).
* The `int valid` / `unsigned long dirty` flags only ever hold 0 or 1 in
  the program; they are modelled as `Bool`.
* `lastUsed` is a C `long` that starts at 0 and is only ever reset to 0
  or incremented, so it is modelled as `Nat`.
* The `unsigned long` statistics counters are modelled as `Nat`.  The
  single subtraction the program performs (`dirty_bytes -= 2^b` on a
  dirty eviction) never underflows on reachable states (proved below as
  part of the dirty-byte invariant), so `Nat` subtraction agrees with
  the C unsigned subtraction there.
* `(unsigned long)pow(2, b)` is exact for every feasible block size and
  is modelled as `2 ^ b`; `(int)pow(2, s)` in `init` is modelled as
  `2 ^ s`.
* The C cache is `cacheLine **cache`, an array of `2^s` sets of `E`
  lines each; it is modelled as `List (List CacheLine)`.  `init` does
  not write the `tag` field (malloc leaves it indeterminate), but no
  code path reads a tag before the line is valid, so the model
  initialises it to 0.
-/

/-- One cache line: `struct cacheLine` of csim.c
    (`int valid; long tag; unsigned long dirty; long lastUsed;`). -/
structure CacheLine where
  valid : Bool
  tag : Int
  dirty : Bool
  lastUsed : Nat
deriving DecidableEq, Repr

instance : Inhabited CacheLine := ⟨⟨false, 0, false, 0⟩⟩

/-- The statistics record `csim_stats_t` (all fields `unsigned long`). -/
structure CsimStats where
  hits : Nat
  misses : Nat
  evictions : Nat
  dirty_bytes : Nat
  dirty_evictions : Nat
deriving DecidableEq, Repr

/-- The mutable program state: the global `cache` array and `stats`. -/
structure SimState where
  cache : List (List CacheLine)
  stats : CsimStats
deriving DecidableEq, Repr

/-- One trace record `Op Addr,Size`; `addr` is the `long` produced by
    `strtol(..., 16)` and `size` is read but never used by the core. -/
structure TraceRecord where
  operation : Char
  addr : Int
  size : Nat
deriving DecidableEq, Repr

/-- Element access `cache[set][i]` style: `getD` with the default line.
    All real accesses are in bounds; the default only keeps the model
    total. -/
def lineAt (lines : List CacheLine) (i : Nat) : CacheLine :=
  lines.getD i default

/-- The `lastUsed` field of line `i`, as read by `findLeastRecentlyUsed`. -/
def lastUsedAt (lines : List CacheLine) (i : Nat) : Nat :=
  (lineAt lines i).lastUsed

/-- The set `cache[idx]` of a simulator state. -/
def setAt (σ : SimState) (idx : Nat) : List CacheLine :=
  σ.cache.getD idx []

/-- Arithmetic right shift of a signed 64-bit value by `n` bits: what
    gcc's `>>` does on a `long`, i.e. floor division by `2 ^ n`.  The C
    evaluation is defined only for `n < 64`. -/
def sar (a : Int) (n : Nat) : Int :=
  Int.fdiv a (2 ^ n)

/-- A 64-bit unsigned address reinterpreted as the signed `long` that
    `updateData` receives (two's complement). -/
def toSigned64 (a : Nat) : Int :=
  if a < 2 ^ 63 then (a : Int) else (a : Int) - 2 ^ 64

/-- The set-index computation of `updateData`:
    `addr >> b & ((1 << s) - 1)`.  On two's complement, AND with the low
    mask `(1 << s) - 1` is exactly the nonnegative residue mod `2 ^ s`
    (`Int.emod` with a positive modulus), also for negative values of
    `addr >> b`.  The C mask expression `1 << s` is defined (no `int`
    overflow) for `s ≤ 30`. -/
def setIndexOf (s b : Nat) (addr : Int) : Nat :=
  ((sar addr b) % ((2 : Int) ^ s)).toNat

/-- The tag computation of `updateData`: `addr >> (s + b)` on the signed
    `long` address.  The C shift is defined only for `s + b ≤ 63`. -/
def tagOf (s b : Nat) (addr : Int) : Int :=
  sar addr (s + b)

/-- The decode step of `updateData` with the C definedness conditions
    made explicit: `addr >> (s + b)` requires `s + b < 64`, and the mask
    `(1 << s) - 1` requires `s < 31` (`1 << 31` already overflows `int`).
    Outside this range the C evaluation is undefined and the model
    returns `none`.  Inside it, it returns the `(tag, setIndex)` pair
    the code computes.  Note csim.c contains no branch on `s + b == 64`:
    the shift at line 274 is performed unconditionally, so geometries
    with `s + b = 64` (accepted by `parseArgument`) reach undefined
    behaviour. -/
def decodeC (s b : Nat) (addr : Int) : Option (Int × Nat) :=
  if s + b < 64 ∧ s < 31 then some (tagOf s b addr, setIndexOf s b addr) else none

/-- First index whose line satisfies `p`, scanning in storage order:
    the `for (i = 0; i < E; i++) ... break;` search pattern of `isMiss`
    and `updateCache`. -/
def scanIdx (p : CacheLine → Bool) : List CacheLine → Option Nat
  | [] => none
  | l :: ls => if p l then some 0 else (scanIdx p ls).map (· + 1)

/-- The hit test of `isMiss`: `valid == 1 && tag == tag`. -/
def hitP (tag : Int) (l : CacheLine) : Bool :=
  l.valid && l.tag == tag

/-- The free-slot test of `updateCache`: `valid == 0`. -/
def invalidP (l : CacheLine) : Bool :=
  !l.valid

/-- Increment `lastUsed` of every line of a list: the `else` arm of the
    loop in `updateLastUsed`. -/
def ageAll (ls : List CacheLine) : List CacheLine :=
  ls.map fun x => { x with lastUsed := x.lastUsed + 1 }

/-- `updateLastUsed(set, offset)` of csim.c, per set: line `offset` gets
    `lastUsed = 0`, every other line has `lastUsed` incremented by 1. -/
def updateLastUsed : List CacheLine → Nat → List CacheLine
  | [], _ => []
  | l :: ls, 0 => { l with lastUsed := 0 } :: ageAll ls
  | l :: ls, i + 1 => { l with lastUsed := l.lastUsed + 1 } :: updateLastUsed ls i

/-- The loop of `findLeastRecentlyUsed`: fold the index sequence,
    keeping `maxIndex`, replacing it only on a strictly larger
    `lastUsed` (`cache[set][i].lastUsed > cache[set][maxIndex].lastUsed`). -/
def flruGo (lines : List CacheLine) : List Nat → Nat → Nat
  | [], maxIndex => maxIndex
  | i :: rest, maxIndex =>
      flruGo lines rest
        (if lastUsedAt lines maxIndex < lastUsedAt lines i then i else maxIndex)

/-- `findLeastRecentlyUsed(set)` of csim.c: scan `i = 0 .. E-1` starting
    from `maxIndex = 0`. -/
def findLeastRecentlyUsed (lines : List CacheLine) : Nat :=
  flruGo lines (List.range lines.length) 0

/-- Result of `isMiss`: the returned flag plus the updated set and
    statistics (the C function mutates `cache[set]` and `stats` in
    place). -/
structure LookupResult where
  miss : Bool
  lines : List CacheLine
  stats : CsimStats
deriving DecidableEq, Repr

/-- `isMiss(set, tag, operation)` of csim.c: scan for the first valid
    line with the requested tag; on a hit call `updateLastUsed` and, for
    a Store to a clean line, set the dirty flag and add a block of
    dirty bytes. -/
def isMiss (b : Nat) (lines : List CacheLine) (tag : Int) (operation : Char)
    (st : CsimStats) : LookupResult :=
  match scanIdx (hitP tag) lines with
  | none => ⟨true, lines, st⟩
  | some i =>
      let lines1 := updateLastUsed lines i
      if operation = 'S' ∧ (lineAt lines1 i).dirty = false then
        ⟨false, lines1.set i { lineAt lines1 i with dirty := true },
          { st with dirty_bytes := st.dirty_bytes + 2 ^ b }⟩
      else
        ⟨false, lines1, st⟩

/-- Result of the install part of `updateCache` (lines 228-256): the
    `isFull` flag, the installed line's `index`, and updated set and
    statistics. -/
structure InstallResult where
  full : Bool
  index : Nat
  lines : List CacheLine
  stats : CsimStats
deriving DecidableEq, Repr

/-- Lines 228-256 of `updateCache`: look for the first invalid line and
    install there; otherwise evict `findLeastRecentlyUsed`, doing the
    dirty write-back bookkeeping when the victim is dirty, overwrite it
    and make it most recently used. -/
def installPhase (b : Nat) (lines : List CacheLine) (tag : Int)
    (st : CsimStats) : InstallResult :=
  match scanIdx invalidP lines with
  | some i =>
      let lines1 := lines.set i { lineAt lines i with valid := true, tag := tag, dirty := false }
      ⟨false, i, updateLastUsed lines1 i, st⟩
  | none =>
      let e := findLeastRecentlyUsed lines
      let lines1 := lines.set e { lineAt lines e with valid := true, tag := tag }
      if (lineAt lines1 e).dirty then
        let lines2 := lines1.set e { lineAt lines1 e with dirty := false }
        ⟨true, e, updateLastUsed lines2 e,
          { st with dirty_evictions := st.dirty_evictions + 2 ^ b,
                    dirty_bytes := st.dirty_bytes - 2 ^ b }⟩
      else
        ⟨true, e, updateLastUsed lines1 e, st⟩

/-- Result of `updateCache`: its return value plus the updated set and
    statistics. -/
structure UpdateResult where
  full : Bool
  lines : List CacheLine
  stats : CsimStats
deriving DecidableEq, Repr

/-- `updateCache(set, tag, operation)` of csim.c: the install phase
    (free slot or eviction), then — for a Store — mark the resident line
    dirty and add a block of dirty bytes (lines 258-261). -/
def updateCache (b : Nat) (lines : List CacheLine) (tag : Int) (operation : Char)
    (st : CsimStats) : UpdateResult :=
  let p := installPhase b lines tag st
  if operation = 'S' then
    ⟨p.full, p.lines.set p.index { lineAt p.lines p.index with dirty := true },
      { p.stats with dirty_bytes := p.stats.dirty_bytes + 2 ^ b }⟩
  else
    ⟨p.full, p.lines, p.stats⟩

/-- `updateData(addr, operation)` of csim.c: decode the address, test
    for a miss (updating recency and store-hit dirtiness), then on a
    miss count it, run `updateCache` and count an eviction when the set
    was full; on a hit count the hit. -/
def updateData (s b : Nat) (σ : SimState) (addr : Int) (operation : Char) : SimState :=
  let setIdx := setIndexOf s b addr
  let tag := tagOf s b addr
  let lines := σ.cache.getD setIdx []
  let m := isMiss b lines tag operation σ.stats
  if m.miss then
    let st2 := { m.stats with misses := m.stats.misses + 1 }
    let u := updateCache b m.lines tag operation st2
    let st4 := if u.full then { u.stats with evictions := u.stats.evictions + 1 } else u.stats
    ⟨σ.cache.set setIdx u.lines, st4⟩
  else
    ⟨σ.cache.set setIdx m.lines, { m.stats with hits := m.stats.hits + 1 }⟩

/-- The body of the trace loop in `main`: only records whose operation
    is `L` or `S` are processed (`operation == 'L' | operation == 'S'`);
    every other record leaves cache and stats untouched. -/
def processRecord (s b : Nat) (σ : SimState) (r : TraceRecord) : SimState :=
  if r.operation = 'L' ∨ r.operation = 'S' then updateData s b σ r.addr r.operation else σ

/-- The trace loop of `main`: process the records in order. -/
def runTrace (s b : Nat) (σ : SimState) (trace : List TraceRecord) : SimState :=
  trace.foldl (processRecord s b) σ

/-- The line state `init` establishes: invalid, clean, `lastUsed = 0`
    (the C code leaves `tag` indeterminate; it is never read while the
    line is invalid, so the model uses 0). -/
def initLine : CacheLine :=
  ⟨false, 0, false, 0⟩

/-- `init()` of csim.c: `2^s` sets of `E` lines, all invalid and clean. -/
def initCache (s E : Nat) : List (List CacheLine) :=
  List.replicate (2 ^ s) (List.replicate E initLine)

/-- The zero-initialised global `stats` together with the initial cache. -/
def initState (s E : Nat) : SimState :=
  ⟨initCache s E, ⟨0, 0, 0, 0, 0⟩⟩

/-- Dirty bytes contributed by one line: a full block when the line is
    valid and dirty, nothing otherwise. -/
def lineDirtyBytes (b : Nat) (l : CacheLine) : Nat :=
  if l.valid = true ∧ l.dirty = true then 2 ^ b else 0

/-- Dirty bytes held in one set. -/
def setDirtyBytes (b : Nat) (lines : List CacheLine) : Nat :=
  (lines.map (lineDirtyBytes b)).sum

/-- Dirty bytes held in the whole cache. -/
def cacheDirtyBytes (b : Nat) (cache : List (List CacheLine)) : Nat :=
  (cache.map (setDirtyBytes b)).sum

/-- Number of Load/Store records in a trace. -/
def countLS (trace : List TraceRecord) : Nat :=
  trace.countP fun r => r.operation == 'L' || r.operation == 'S'

/-! ### Basic list-access lemmas -/

theorem getD_set_self {α : Type} (l : List α) (i : Nat) (v d : α) (h : i < l.length) :
    (l.set i v).getD i d = v := by
  induction l generalizing i with
  | nil => simp at h
  | cons a t ih =>
      cases i with
      | zero => rfl
      | succ j => exact ih j (by simpa using h)

theorem getD_set_ne {α : Type} (l : List α) (i j : Nat) (v d : α) (h : j ≠ i) :
    (l.set i v).getD j d = l.getD j d := by
  induction l generalizing i j with
  | nil => rfl
  | cons a t ih =>
      cases i with
      | zero => cases j with
          | zero => exact absurd rfl h
          | succ k => rfl
      | succ i' => cases j with
          | zero => rfl
          | succ k => exact ih i' k (fun hk => h (by omega))

theorem getD_of_length_le {α : Type} (l : List α) (i : Nat) (d : α) (h : l.length ≤ i) :
    l.getD i d = d := by
  induction l generalizing i with
  | nil => rfl
  | cons a t ih =>
      cases i with
      | zero => simp at h
      | succ j => exact ih j (by simpa using h)

theorem lineAt_set_self (l : List CacheLine) (i : Nat) (v : CacheLine) (h : i < l.length) :
    lineAt (l.set i v) i = v :=
  getD_set_self l i v default h

theorem lineAt_set_ne (l : List CacheLine) (i j : Nat) (v : CacheLine) (h : j ≠ i) :
    lineAt (l.set i v) j = lineAt l j :=
  getD_set_ne l i j v default h

theorem lineAt_of_length_le (l : List CacheLine) (i : Nat) (h : l.length ≤ i) :
    lineAt l i = default :=
  getD_of_length_le l i default h

/-! ### `updateLastUsed` lemmas -/

theorem length_ageAll (l : List CacheLine) : (ageAll l).length = l.length := by
  simp [ageAll]

theorem lineAt_cons_zero (a : CacheLine) (l : List CacheLine) : lineAt (a :: l) 0 = a := rfl

theorem lineAt_cons_succ (a : CacheLine) (l : List CacheLine) (j : Nat) :
    lineAt (a :: l) (j + 1) = lineAt l j := rfl

theorem lineAt_ageAll (l : List CacheLine) (j : Nat) (h : j < l.length) :
    lineAt (ageAll l) j = { lineAt l j with lastUsed := (lineAt l j).lastUsed + 1 } := by
  induction l generalizing j with
  | nil => simp at h
  | cons a t ih =>
      cases j with
      | zero => rfl
      | succ k => exact ih k (by simpa using h)

theorem length_updateLastUsed (l : List CacheLine) (i : Nat) :
    (updateLastUsed l i).length = l.length := by
  induction l generalizing i with
  | nil => rfl
  | cons a t ih =>
      cases i with
      | zero => simp [updateLastUsed, length_ageAll]
      | succ i' => simp [updateLastUsed, ih]

theorem lineAt_updateLastUsed (l : List CacheLine) (i j : Nat) (hj : j < l.length) :
    lineAt (updateLastUsed l i) j =
      if j = i then { lineAt l j with lastUsed := 0 }
      else { lineAt l j with lastUsed := (lineAt l j).lastUsed + 1 } := by
  induction l generalizing i j with
  | nil => simp at hj
  | cons a t ih =>
      cases i with
      | zero =>
          cases j with
          | zero => rfl
          | succ k =>
              have hk : k < t.length := by simpa using hj
              simp only [updateLastUsed, lineAt_cons_succ]
              rw [lineAt_ageAll t k hk, if_neg (by omega : ¬k + 1 = 0)]
      | succ i' =>
          cases j with
          | zero =>
              simp only [updateLastUsed, lineAt_cons_zero]
              rw [if_neg (by omega : ¬(0 : Nat) = i' + 1)]
          | succ k =>
              have hk : k < t.length := by simpa using hj
              simp only [updateLastUsed, lineAt_cons_succ]
              rw [ih i' k hk]
              by_cases hk' : k = i'
              · simp [hk']
              · rw [if_neg hk', if_neg (by omega : ¬k + 1 = i' + 1)]

/-! ### `scanIdx` lemmas -/

theorem scanIdx_none (p : CacheLine → Bool) (l : List CacheLine)
    (h : scanIdx p l = none) : ∀ j < l.length, p (lineAt l j) = false := by
  induction l with
  | nil => intro j hj; simp at hj
  | cons a t ih =>
      intro j hj
      simp only [scanIdx] at h
      by_cases hp : p a
      · simp [hp] at h
      · cases j with
        | zero => simpa using hp
        | succ k =>
            have ht : scanIdx p t = none := by simpa [hp] using h
            exact ih ht k (by simpa using hj)

theorem scanIdx_some (p : CacheLine → Bool) (l : List CacheLine) (i : Nat)
    (h : scanIdx p l = some i) :
    i < l.length ∧ p (lineAt l i) = true ∧ ∀ j < i, p (lineAt l j) = false := by
  induction l generalizing i with
  | nil => simp [scanIdx] at h
  | cons a t ih =>
      simp only [scanIdx] at h
      by_cases hp : p a
      · simp only [hp, if_true] at h
        cases h
        exact ⟨by simp, by simpa using hp, fun j hj => by omega⟩
      · simp only [hp, if_false] at h
        rcases Option.map_eq_some'.mp h with ⟨i', hi', rfl⟩
        rcases ih i' hi' with ⟨h1, h2, h3⟩
        refine ⟨by simpa using h1, h2, ?_⟩
        intro j hj
        cases j with
        | zero => simpa using hp
        | succ k => exact h3 k (by omega)

/-! ### `findLeastRecentlyUsed` lemmas -/

theorem flruGo_inv (lines : List CacheLine) (n : Nat) :
    ∀ (k acc : Nat), acc < k →
    (∀ j < k, lastUsedAt lines j ≤ lastUsedAt lines acc) →
    (∀ j < acc, lastUsedAt lines j < lastUsedAt lines acc) →
    flruGo lines (List.range' k n) acc < k + n ∧
    (∀ j < k + n, lastUsedAt lines j ≤ lastUsedAt lines (flruGo lines (List.range' k n) acc)) ∧
    (∀ j < flruGo lines (List.range' k n) acc,
        lastUsedAt lines j < lastUsedAt lines (flruGo lines (List.range' k n) acc)) := by
  induction n with
  | zero =>
      intro k acc h1 h2 h3
      simp only [List.range', flruGo]
      exact ⟨by omega, fun j hj => h2 j (by omega), h3⟩
  | succ m ih =>
      intro k acc h1 h2 h3
      rw [List.range'_succ]
      simp only [flruGo]
      by_cases hc : lastUsedAt lines acc < lastUsedAt lines k
      · rw [if_pos hc]
        have := ih (k + 1) k (by omega)
          (fun j hj => by
            rcases Nat.lt_succ_iff_lt_or_eq.mp hj with hj' | rfl
            · exact le_of_lt (lt_of_le_of_lt (h2 j hj') hc)
            · exact le_refl _)
          (fun j hj => lt_of_le_of_lt (h2 j hj) hc)
        refine ⟨by omega, fun j hj => this.2.1 j (by omega), this.2.2⟩
      · rw [if_neg hc]
        have := ih (k + 1) acc (by omega)
          (fun j hj => by
            rcases Nat.lt_succ_iff_lt_or_eq.mp hj with hj' | rfl
            · exact h2 j hj'
            · exact le_of_not_lt hc)
          h3
        refine ⟨by omega, fun j hj => this.2.1 j (by omega), this.2.2⟩

theorem findLeastRecentlyUsed_spec (lines : List CacheLine) (h : 1 ≤ lines.length) :
    findLeastRecentlyUsed lines < lines.length ∧
    (∀ j < lines.length, lastUsedAt lines j ≤ lastUsedAt lines (findLeastRecentlyUsed lines)) ∧
    (∀ j < findLeastRecentlyUsed lines,
        lastUsedAt lines j < lastUsedAt lines (findLeastRecentlyUsed lines)) := by
  obtain ⟨m, hm⟩ : ∃ m, lines.length = m + 1 := ⟨lines.length - 1, by omega⟩
  have hstep : findLeastRecentlyUsed lines = flruGo lines (List.range' 1 m) 0 := by
    unfold findLeastRecentlyUsed
    rw [hm, List.range_eq_range', List.range'_succ]
    simp [flruGo]
  have := flruGo_inv lines m 1 0 (by omega)
    (fun j hj => by
      have hj0 : j = 0 := by omega
      rw [hj0])
    (fun j hj => by omega)
  rw [hstep, hm]
  exact ⟨by omega, fun j hj => this.2.1 j (by omega), this.2.2⟩

/-! ### Sum lemmas for the dirty-byte accounting -/

theorem sum_map_set {α : Type} (f : α → Nat) (l : List α) (i : Nat) (v d : α)
    (h : i < l.length) :
    ((l.set i v).map f).sum + f (l.getD i d) = (l.map f).sum + f v := by
  induction l generalizing i with
  | nil => simp at h
  | cons a t ih =>
      cases i with
      | zero => simp [List.set]; omega
      | succ j =>
          have := ih j (by simpa using h)
          simp only [List.set, List.map_cons, List.sum_cons, List.getD_cons_succ]
          omega

theorem getD_le_sum {α : Type} (f : α → Nat) (l : List α) (i : Nat) (d : α)
    (h : i < l.length) : f (l.getD i d) ≤ (l.map f).sum := by
  induction l generalizing i with
  | nil => simp at h
  | cons a t ih =>
      cases i with
      | zero => simp
      | succ j =>
          have := ih j (by simpa using h)
          simp only [List.getD_cons_succ, List.map_cons, List.sum_cons]
          omega

theorem sum_map_le_length_mul {α : Type} (f : α → Nat) (c : Nat) (l : List α)
    (h : ∀ x ∈ l, f x ≤ c) : (l.map f).sum ≤ l.length * c := by
  induction l with
  | nil => simp
  | cons a t ih =>
      have ha := h a (by simp)
      have ht := ih fun x hx => h x (by simp [hx])
      simp only [List.map_cons, List.sum_cons, List.length_cons]
      calc f a + (t.map f).sum ≤ c + t.length * c := by omega
        _ = (t.length + 1) * c := by ring

theorem lineDirtyBytes_lastUsed (b : Nat) (l : CacheLine) (x : Nat) :
    lineDirtyBytes b { l with lastUsed := x } = lineDirtyBytes b l := rfl

theorem setDirtyBytes_ageAll (b : Nat) (l : List CacheLine) :
    setDirtyBytes b (ageAll l) = setDirtyBytes b l := by
  induction l with
  | nil => rfl
  | cons a t ih =>
      simp only [ageAll, setDirtyBytes, List.map_cons, List.sum_cons] at *
      rw [lineDirtyBytes_lastUsed]
      omega

theorem setDirtyBytes_updateLastUsed (b : Nat) (l : List CacheLine) (i : Nat) :
    setDirtyBytes b (updateLastUsed l i) = setDirtyBytes b l := by
  induction l generalizing i with
  | nil => rfl
  | cons a t ih =>
      cases i with
      | zero =>
          simp only [updateLastUsed, setDirtyBytes, List.map_cons, List.sum_cons]
          have := setDirtyBytes_ageAll b t
          simp only [setDirtyBytes] at this
          rw [lineDirtyBytes_lastUsed, this]
      | succ j =>
          simp only [updateLastUsed, setDirtyBytes, List.map_cons, List.sum_cons]
          have := ih j
          simp only [setDirtyBytes] at this
          rw [lineDirtyBytes_lastUsed, this]

theorem lineDirtyBytes_le (b : Nat) (l : CacheLine) : lineDirtyBytes b l ≤ 2 ^ b := by
  unfold lineDirtyBytes
  split
  · exact le_refl _
  · exact Nat.zero_le _

/-! ### Path shape lemmas for `updateData` -/

/-- The set contents `updateData` leaves behind on a hit at line `i`
    (recency update, then the store-hit dirty marking of `isMiss`). -/
def hitLines (lines : List CacheLine) (i : Nat) (op : Char) : List CacheLine :=
  if op = 'S' ∧ (lineAt (updateLastUsed lines i) i).dirty = false
  then (updateLastUsed lines i).set i { lineAt (updateLastUsed lines i) i with dirty := true }
  else updateLastUsed lines i

/-- The set contents `updateData` leaves behind on a miss installed into
    the free line `i` (install, recency update, then the store marking of
    `updateCache`). -/
def freeLines (lines : List CacheLine) (i : Nat) (tag : Int) (op : Char) : List CacheLine :=
  let lines1 := lines.set i { lineAt lines i with valid := true, tag := tag, dirty := false }
  let lines2 := updateLastUsed lines1 i
  if op = 'S' then lines2.set i { lineAt lines2 i with dirty := true } else lines2

/-- The set contents `updateData` leaves behind on a miss in a full set
    (overwrite the LRU victim, clear a dirty victim, recency update, then
    the store marking of `updateCache`). -/
def evictLines (lines : List CacheLine) (tag : Int) (op : Char) : List CacheLine :=
  let e := findLeastRecentlyUsed lines
  let lines1 := lines.set e { lineAt lines e with valid := true, tag := tag }
  let lines2 := if (lineAt lines1 e).dirty = true
                then lines1.set e { lineAt lines1 e with dirty := false }
                else lines1
  let lines3 := updateLastUsed lines2 e
  if op = 'S' then lines3.set e { lineAt lines3 e with dirty := true } else lines3

theorem updateData_hit_shape (s b : Nat) (σ : SimState) (addr : Int) (op : Char) (i : Nat)
    (lines : List CacheLine) (hl : σ.cache.getD (setIndexOf s b addr) [] = lines)
    (hhit : scanIdx (hitP (tagOf s b addr)) lines = some i) :
    updateData s b σ addr op =
      ⟨σ.cache.set (setIndexOf s b addr) (hitLines lines i op),
       ⟨σ.stats.hits + 1, σ.stats.misses, σ.stats.evictions,
        σ.stats.dirty_bytes +
          (if op = 'S' ∧ (lineAt (updateLastUsed lines i) i).dirty = false then 2 ^ b else 0),
        σ.stats.dirty_evictions⟩⟩ := by
  subst hl
  simp only [updateData, isMiss, hhit, hitLines]
  by_cases hc : op = 'S' ∧
      (lineAt (updateLastUsed (σ.cache.getD (setIndexOf s b addr) []) i) i).dirty = false
  · simp only [if_pos hc]
    simp
  · simp only [if_neg hc]
    simp

theorem updateData_free_shape (s b : Nat) (σ : SimState) (addr : Int) (op : Char) (i : Nat)
    (lines : List CacheLine) (hl : σ.cache.getD (setIndexOf s b addr) [] = lines)
    (hmiss : scanIdx (hitP (tagOf s b addr)) lines = none)
    (hfree : scanIdx invalidP lines = some i) :
    updateData s b σ addr op =
      ⟨σ.cache.set (setIndexOf s b addr) (freeLines lines i (tagOf s b addr) op),
       ⟨σ.stats.hits, σ.stats.misses + 1, σ.stats.evictions,
        σ.stats.dirty_bytes + (if op = 'S' then 2 ^ b else 0),
        σ.stats.dirty_evictions⟩⟩ := by
  subst hl
  simp only [updateData, isMiss, hmiss, updateCache, installPhase, hfree, freeLines]
  by_cases hop : op = 'S'
  · simp only [if_pos hop]
    simp
  · simp only [if_neg hop]
    simp

theorem updateData_evict_shape (s b : Nat) (σ : SimState) (addr : Int) (op : Char)
    (lines : List CacheLine) (hl : σ.cache.getD (setIndexOf s b addr) [] = lines)
    (hmiss : scanIdx (hitP (tagOf s b addr)) lines = none)
    (hfull : scanIdx invalidP lines = none) :
    updateData s b σ addr op =
      ⟨σ.cache.set (setIndexOf s b addr) (evictLines lines (tagOf s b addr) op),
       ⟨σ.stats.hits, σ.stats.misses + 1, σ.stats.evictions + 1,
        (if (lineAt (lines.set (findLeastRecentlyUsed lines)
              { lineAt lines (findLeastRecentlyUsed lines) with valid := true, tag := tagOf s b addr })
              (findLeastRecentlyUsed lines)).dirty = true
         then σ.stats.dirty_bytes - 2 ^ b else σ.stats.dirty_bytes) + (if op = 'S' then 2 ^ b else 0),
        σ.stats.dirty_evictions +
          (if (lineAt (lines.set (findLeastRecentlyUsed lines)
                { lineAt lines (findLeastRecentlyUsed lines) with valid := true, tag := tagOf s b addr })
                (findLeastRecentlyUsed lines)).dirty = true
           then 2 ^ b else 0)⟩⟩ := by
  subst hl
  simp only [updateData, isMiss, hmiss, updateCache, installPhase, hfull, evictLines]
  by_cases hd : (lineAt ((σ.cache.getD (setIndexOf s b addr) []).set
      (findLeastRecentlyUsed (σ.cache.getD (setIndexOf s b addr) []))
      { lineAt (σ.cache.getD (setIndexOf s b addr) [])
          (findLeastRecentlyUsed (σ.cache.getD (setIndexOf s b addr) []))
        with valid := true, tag := tagOf s b addr })
      (findLeastRecentlyUsed (σ.cache.getD (setIndexOf s b addr) []))).dirty = true
  · simp only [if_pos hd]
    by_cases hop : op = 'S'
    · simp only [if_pos hop]; simp
    · simp only [if_neg hop]; simp
  · simp only [if_neg hd]
    by_cases hop : op = 'S'
    · simp only [if_pos hop]; simp
    · simp only [if_neg hop]; simp

/-! ### Derived facts: hit path -/

theorem lineAt_updateLastUsed_self (lines : List CacheLine) (i : Nat) (hi : i < lines.length) :
    lineAt (updateLastUsed lines i) i = { lineAt lines i with lastUsed := 0 } := by
  rw [lineAt_updateLastUsed lines i i hi, if_pos rfl]

theorem length_hitLines (lines : List CacheLine) (i : Nat) (op : Char) :
    (hitLines lines i op).length = lines.length := by
  unfold hitLines
  split
  · simp [length_updateLastUsed]
  · simp [length_updateLastUsed]

theorem lineAt_hitLines_self (lines : List CacheLine) (i : Nat) (op : Char)
    (hi : i < lines.length) :
    lineAt (hitLines lines i op) i =
      ⟨(lineAt lines i).valid, (lineAt lines i).tag,
       ((lineAt lines i).dirty || decide (op = 'S')), 0⟩ := by
  unfold hitLines
  by_cases hc : op = 'S' ∧ (lineAt (updateLastUsed lines i) i).dirty = false
  · rw [if_pos hc, lineAt_set_self _ _ _ (by rw [length_updateLastUsed]; exact hi),
      lineAt_updateLastUsed_self lines i hi]
    rcases hc with ⟨hop, hd⟩
    rw [lineAt_updateLastUsed_self lines i hi] at hd
    simp only at hd
    simp [hop, hd]
  · rw [if_neg hc, lineAt_updateLastUsed_self lines i hi]
    rw [lineAt_updateLastUsed_self lines i hi] at hc
    simp only at hc
    by_cases hop : op = 'S'
    · have hd : (lineAt lines i).dirty = true := by
        rcases Bool.eq_false_or_eq_true (lineAt lines i).dirty with h | h
        · exact h
        · exact absurd ⟨hop, h⟩ hc
      simp [hop, hd]
    · simp [hop]

theorem lineAt_hitLines_ne (lines : List CacheLine) (i : Nat) (op : Char) (j : Nat)
    (hj : j < lines.length) (hne : j ≠ i) :
    lineAt (hitLines lines i op) j =
      { lineAt lines j with lastUsed := (lineAt lines j).lastUsed + 1 } := by
  unfold hitLines
  have hbase := lineAt_updateLastUsed lines i j hj
  rw [if_neg hne] at hbase
  split
  · rw [lineAt_set_ne _ _ _ _ hne, hbase]
  · rw [hbase]

theorem setDirtyBytes_hitLines (b : Nat) (lines : List CacheLine) (i : Nat) (op : Char)
    (hi : i < lines.length) (hvalid : (lineAt lines i).valid = true) :
    setDirtyBytes b (hitLines lines i op) =
      setDirtyBytes b lines +
        (if op = 'S' ∧ (lineAt lines i).dirty = false then 2 ^ b else 0) := by
  unfold hitLines
  have hcond : (lineAt (updateLastUsed lines i) i).dirty = (lineAt lines i).dirty := by
    rw [lineAt_updateLastUsed_self lines i hi]
  by_cases hc : op = 'S' ∧ (lineAt lines i).dirty = false
  · rw [if_pos (by rw [hcond]; exact hc), if_pos hc]
    have hlen : i < (updateLastUsed lines i).length := by rw [length_updateLastUsed]; exact hi
    have hsum := sum_map_set (lineDirtyBytes b) (updateLastUsed lines i) i
      { lineAt (updateLastUsed lines i) i with dirty := true } default hlen
    have hold : lineDirtyBytes b ((updateLastUsed lines i).getD i default) = 0 := by
      show lineDirtyBytes b (lineAt (updateLastUsed lines i) i) = 0
      rw [lineAt_updateLastUsed_self lines i hi]
      simp [lineDirtyBytes, hc.2]
    have hnew : lineDirtyBytes b { lineAt (updateLastUsed lines i) i with dirty := true } = 2 ^ b := by
      rw [lineAt_updateLastUsed_self lines i hi]
      simp [lineDirtyBytes, hvalid]
    rw [hold, hnew] at hsum
    have hbase := setDirtyBytes_updateLastUsed b lines i
    simp only [setDirtyBytes] at hsum hbase ⊢
    omega
  · rw [if_neg (by rw [hcond]; exact hc), if_neg hc]
    have := setDirtyBytes_updateLastUsed b lines i
    simp only [setDirtyBytes] at this ⊢
    omega

/-! ### Derived facts: free-slot install path -/

theorem length_freeLines (lines : List CacheLine) (i : Nat) (tag : Int) (op : Char) :
    (freeLines lines i tag op).length = lines.length := by
  unfold freeLines
  split
  · simp [length_updateLastUsed]
  · simp [length_updateLastUsed]

theorem lineAt_freeLines_self (lines : List CacheLine) (i : Nat) (tag : Int) (op : Char)
    (hi : i < lines.length) :
    lineAt (freeLines lines i tag op) i = ⟨true, tag, decide (op = 'S'), 0⟩ := by
  unfold freeLines
  have h1 : i < (lines.set i { lineAt lines i with valid := true, tag := tag, dirty := false }).length := by
    simpa using hi
  have hset : lineAt (lines.set i { lineAt lines i with valid := true, tag := tag, dirty := false }) i
      = { lineAt lines i with valid := true, tag := tag, dirty := false } :=
    lineAt_set_self _ _ _ hi
  have hu := lineAt_updateLastUsed_self
    (lines.set i { lineAt lines i with valid := true, tag := tag, dirty := false }) i h1
  rw [hset] at hu
  by_cases hop : op = 'S'
  · rw [if_pos hop, lineAt_set_self _ _ _ (by rw [length_updateLastUsed]; exact h1), hu]
    simp [hop]
  · rw [if_neg hop, hu]
    simp [hop]

theorem lineAt_freeLines_ne (lines : List CacheLine) (i : Nat) (tag : Int) (op : Char) (j : Nat)
    (hj : j < lines.length) (hne : j ≠ i) :
    lineAt (freeLines lines i tag op) j =
      { lineAt lines j with lastUsed := (lineAt lines j).lastUsed + 1 } := by
  unfold freeLines
  have h1 : j < (lines.set i { lineAt lines i with valid := true, tag := tag, dirty := false }).length := by
    simpa using hj
  have hset : lineAt (lines.set i { lineAt lines i with valid := true, tag := tag, dirty := false }) j
      = lineAt lines j := lineAt_set_ne _ _ _ _ hne
  have hu := lineAt_updateLastUsed
    (lines.set i { lineAt lines i with valid := true, tag := tag, dirty := false }) i j h1
  rw [if_neg hne, hset] at hu
  split
  · rw [lineAt_set_ne _ _ _ _ hne, hu]
  · rw [hu]

theorem setDirtyBytes_freeLines (b : Nat) (lines : List CacheLine) (i : Nat) (tag : Int)
    (op : Char) (hi : i < lines.length) (hinv : (lineAt lines i).valid = false) :
    setDirtyBytes b (freeLines lines i tag op) =
      setDirtyBytes b lines + (if op = 'S' then 2 ^ b else 0) := by
  unfold freeLines
  have hsum1 := sum_map_set (lineDirtyBytes b) lines i
    { lineAt lines i with valid := true, tag := tag, dirty := false } default hi
  have hold1 : lineDirtyBytes b (lines.getD i default) = 0 := by
    show lineDirtyBytes b (lineAt lines i) = 0
    simp [lineDirtyBytes, hinv]
  have hnew1 : lineDirtyBytes b { lineAt lines i with valid := true, tag := tag, dirty := false } = 0 := by
    simp [lineDirtyBytes]
  rw [hold1, hnew1] at hsum1
  have h1 : i < (lines.set i { lineAt lines i with valid := true, tag := tag, dirty := false }).length := by
    simpa using hi
  have hbase := setDirtyBytes_updateLastUsed b
    (lines.set i { lineAt lines i with valid := true, tag := tag, dirty := false }) i
  by_cases hop : op = 'S'
  · rw [if_pos hop, if_pos hop]
    have h2 : i < (updateLastUsed (lines.set i { lineAt lines i with valid := true, tag := tag, dirty := false }) i).length := by
      rw [length_updateLastUsed]; exact h1
    have hsum2 := sum_map_set (lineDirtyBytes b)
      (updateLastUsed (lines.set i { lineAt lines i with valid := true, tag := tag, dirty := false }) i) i
      { lineAt (updateLastUsed (lines.set i { lineAt lines i with valid := true, tag := tag, dirty := false }) i) i
        with dirty := true } default h2
    have hmid : lineAt (updateLastUsed (lines.set i { lineAt lines i with valid := true, tag := tag, dirty := false }) i) i
        = { lineAt lines i with valid := true, tag := tag, dirty := false, lastUsed := 0 } := by
      have hu := lineAt_updateLastUsed_self
        (lines.set i { lineAt lines i with valid := true, tag := tag, dirty := false }) i h1
      rw [lineAt_set_self _ _ _ hi] at hu
      exact hu
    have hold2 : lineDirtyBytes b
        ((updateLastUsed (lines.set i { lineAt lines i with valid := true, tag := tag, dirty := false }) i).getD i default) = 0 := by
      show lineDirtyBytes b (lineAt (updateLastUsed (lines.set i { lineAt lines i with valid := true, tag := tag, dirty := false }) i) i) = 0
      rw [hmid]
      simp [lineDirtyBytes]
    have hnew2 : lineDirtyBytes b
        { lineAt (updateLastUsed (lines.set i { lineAt lines i with valid := true, tag := tag, dirty := false }) i) i
          with dirty := true } = 2 ^ b := by
      rw [hmid]
      simp [lineDirtyBytes]
    rw [hold2, hnew2] at hsum2
    simp only [setDirtyBytes] at hsum1 hsum2 hbase ⊢
    omega
  · rw [if_neg hop, if_neg hop]
    simp only [setDirtyBytes] at hsum1 hbase ⊢
    omega

/-! ### Derived facts: eviction path -/

theorem all_valid_of_full (lines : List CacheLine) (hfull : scanIdx invalidP lines = none) :
    ∀ j < lines.length, (lineAt lines j).valid = true := by
  intro j hj
  have := scanIdx_none invalidP lines hfull j hj
  simpa [invalidP] using this

theorem evictLines_eq_freeLines (lines : List CacheLine) (tag : Int) (op : Char)
    (hE : 1 ≤ lines.length) :
    evictLines lines tag op = freeLines lines (findLeastRecentlyUsed lines) tag op := by
  have he : findLeastRecentlyUsed lines < lines.length :=
    (findLeastRecentlyUsed_spec lines hE).1
  have hw : lineAt (lines.set (findLeastRecentlyUsed lines)
      { lineAt lines (findLeastRecentlyUsed lines) with valid := true, tag := tag })
      (findLeastRecentlyUsed lines)
      = { lineAt lines (findLeastRecentlyUsed lines) with valid := true, tag := tag } :=
    lineAt_set_self _ _ _ he
  simp only [evictLines, freeLines]
  rw [hw]
  by_cases hd : ({ lineAt lines (findLeastRecentlyUsed lines) with
      valid := true, tag := tag } : CacheLine).dirty = true
  · rw [if_pos hd, List.set_set]
  · rw [if_neg hd]
    have hdf : (lineAt lines (findLeastRecentlyUsed lines)).dirty = false := by
      simpa using hd
    have hrec : ({ lineAt lines (findLeastRecentlyUsed lines) with
        valid := true, tag := tag } : CacheLine) =
        { lineAt lines (findLeastRecentlyUsed lines) with
          valid := true, tag := tag, dirty := false } := by
      cases hOld : lineAt lines (findLeastRecentlyUsed lines)
      rw [hOld] at hdf
      simp only at hdf
      rw [hdf]
    rw [hrec]

theorem lineAt_evictLines_self (lines : List CacheLine) (tag : Int) (op : Char)
    (hE : 1 ≤ lines.length) :
    lineAt (evictLines lines tag op) (findLeastRecentlyUsed lines) =
      ⟨true, tag, decide (op = 'S'), 0⟩ := by
  rw [evictLines_eq_freeLines lines tag op hE]
  exact lineAt_freeLines_self lines (findLeastRecentlyUsed lines) tag op
    (findLeastRecentlyUsed_spec lines hE).1

theorem lineAt_evictLines_ne (lines : List CacheLine) (tag : Int) (op : Char) (j : Nat)
    (hE : 1 ≤ lines.length) (hj : j < lines.length) (hne : j ≠ findLeastRecentlyUsed lines) :
    lineAt (evictLines lines tag op) j =
      { lineAt lines j with lastUsed := (lineAt lines j).lastUsed + 1 } := by
  rw [evictLines_eq_freeLines lines tag op hE]
  exact lineAt_freeLines_ne lines (findLeastRecentlyUsed lines) tag op j hj hne

theorem length_evictLines (lines : List CacheLine) (tag : Int) (op : Char)
    (hE : 1 ≤ lines.length) :
    (evictLines lines tag op).length = lines.length := by
  rw [evictLines_eq_freeLines lines tag op hE]
  exact length_freeLines lines (findLeastRecentlyUsed lines) tag op

theorem setDirtyBytes_freeLines_add (b : Nat) (lines : List CacheLine) (i : Nat) (tag : Int)
    (op : Char) (hi : i < lines.length) :
    setDirtyBytes b (freeLines lines i tag op) + lineDirtyBytes b (lineAt lines i) =
      setDirtyBytes b lines + (if op = 'S' then 2 ^ b else 0) := by
  unfold freeLines
  have hsum1 := sum_map_set (lineDirtyBytes b) lines i
    { lineAt lines i with valid := true, tag := tag, dirty := false } default hi
  have hnew1 : lineDirtyBytes b { lineAt lines i with valid := true, tag := tag, dirty := false } = 0 := by
    simp [lineDirtyBytes]
  rw [hnew1] at hsum1
  have h1 : i < (lines.set i { lineAt lines i with valid := true, tag := tag, dirty := false }).length := by
    simpa using hi
  have hbase := setDirtyBytes_updateLastUsed b
    (lines.set i { lineAt lines i with valid := true, tag := tag, dirty := false }) i
  by_cases hop : op = 'S'
  · rw [if_pos hop, if_pos hop]
    have h2 : i < (updateLastUsed (lines.set i { lineAt lines i with valid := true, tag := tag, dirty := false }) i).length := by
      rw [length_updateLastUsed]; exact h1
    have hsum2 := sum_map_set (lineDirtyBytes b)
      (updateLastUsed (lines.set i { lineAt lines i with valid := true, tag := tag, dirty := false }) i) i
      { lineAt (updateLastUsed (lines.set i { lineAt lines i with valid := true, tag := tag, dirty := false }) i) i
        with dirty := true } default h2
    have hmid : lineAt (updateLastUsed (lines.set i { lineAt lines i with valid := true, tag := tag, dirty := false }) i) i
        = { lineAt lines i with valid := true, tag := tag, dirty := false, lastUsed := 0 } := by
      have hu := lineAt_updateLastUsed_self
        (lines.set i { lineAt lines i with valid := true, tag := tag, dirty := false }) i h1
      rw [lineAt_set_self _ _ _ hi] at hu
      exact hu
    have hold2 : lineDirtyBytes b
        ((updateLastUsed (lines.set i { lineAt lines i with valid := true, tag := tag, dirty := false }) i).getD i default) = 0 := by
      show lineDirtyBytes b (lineAt (updateLastUsed (lines.set i { lineAt lines i with valid := true, tag := tag, dirty := false }) i) i) = 0
      rw [hmid]
      simp [lineDirtyBytes]
    have hnew2 : lineDirtyBytes b
        { lineAt (updateLastUsed (lines.set i { lineAt lines i with valid := true, tag := tag, dirty := false }) i) i
          with dirty := true } = 2 ^ b := by
      rw [hmid]
      simp [lineDirtyBytes]
    rw [hold2, hnew2] at hsum2
    show _ + lineDirtyBytes b (lines.getD i default) = _
    simp only [setDirtyBytes] at hsum1 hsum2 hbase ⊢
    omega
  · rw [if_neg hop, if_neg hop]
    show _ + lineDirtyBytes b (lines.getD i default) = _
    simp only [setDirtyBytes] at hsum1 hbase ⊢
    omega

theorem setDirtyBytes_evictLines (b : Nat) (lines : List CacheLine) (tag : Int) (op : Char)
    (hE : 1 ≤ lines.length)
    (hvalid : (lineAt lines (findLeastRecentlyUsed lines)).valid = true) :
    setDirtyBytes b (evictLines lines tag op) +
        (if (lineAt lines (findLeastRecentlyUsed lines)).dirty = true then 2 ^ b else 0) =
      setDirtyBytes b lines + (if op = 'S' then 2 ^ b else 0) := by
  rw [evictLines_eq_freeLines lines tag op hE]
  have he : findLeastRecentlyUsed lines < lines.length :=
    (findLeastRecentlyUsed_spec lines hE).1
  have := setDirtyBytes_freeLines_add b lines (findLeastRecentlyUsed lines) tag op he
  have hf : lineDirtyBytes b (lineAt lines (findLeastRecentlyUsed lines)) =
      (if (lineAt lines (findLeastRecentlyUsed lines)).dirty = true then 2 ^ b else 0) := by
    by_cases hd : (lineAt lines (findLeastRecentlyUsed lines)).dirty = true
    · rw [if_pos hd]
      simp [lineDirtyBytes, hvalid, hd]
    · rw [if_neg hd]
      simp only [lineDirtyBytes]
      rw [if_neg (fun hc => hd hc.2)]
  rw [hf] at this
  exact this

theorem dirty_victim_le_setDirtyBytes (b : Nat) (lines : List CacheLine)
    (hE : 1 ≤ lines.length)
    (hvalid : (lineAt lines (findLeastRecentlyUsed lines)).valid = true)
    (hdirty : (lineAt lines (findLeastRecentlyUsed lines)).dirty = true) :
    2 ^ b ≤ setDirtyBytes b lines := by
  have he : findLeastRecentlyUsed lines < lines.length :=
    (findLeastRecentlyUsed_spec lines hE).1
  have := getD_le_sum (lineDirtyBytes b) lines (findLeastRecentlyUsed lines) default he
  have hf : lineDirtyBytes b (lines.getD (findLeastRecentlyUsed lines) default) = 2 ^ b := by
    show lineDirtyBytes b (lineAt lines (findLeastRecentlyUsed lines)) = 2 ^ b
    simp [lineDirtyBytes, hvalid, hdirty]
  rw [hf] at this
  exact this

/-! ### Claims: decode and replacement policy -/

theorem setIndexOf_lt (s b : Nat) (addr : Int) : setIndexOf s b addr < 2 ^ s := by
  unfold setIndexOf
  have h2 : (0 : Int) < 2 ^ s := by positivity
  have hlt := Int.emod_lt_of_pos (sar addr b) h2
  have h0 := Int.emod_nonneg (sar addr b) (ne_of_gt h2)
  have hcast : ((2 ^ s : Nat) : Int) = (2 : Int) ^ s := by push_cast; ring
  omega

theorem getD_mem {α : Type} (l : List α) (i : Nat) (d : α) (h : i < l.length) :
    l.getD i d ∈ l := by
  induction l generalizing i with
  | nil => simp at h
  | cons a t ih =>
      cases i with
      | zero => simp
      | succ j => exact List.mem_cons_of_mem a (ih j (by simpa using h))

/-- Claim C3: on a full set, `findLeastRecentlyUsed` scans left to right
    with a strict `>` comparison, so the returned victim is in range,
    attains the maximal `lastUsed` value, and is the lowest storage index
    among the lines attaining that maximum. -/
theorem c3_lru_victim_lowest_index (lines : List CacheLine)
    (hfull : scanIdx invalidP lines = none) (hE : 1 ≤ lines.length) :
    findLeastRecentlyUsed lines < lines.length ∧
    (∀ j < lines.length, lastUsedAt lines j ≤ lastUsedAt lines (findLeastRecentlyUsed lines)) ∧
    (∀ j < lines.length,
        lastUsedAt lines j = lastUsedAt lines (findLeastRecentlyUsed lines) →
        findLeastRecentlyUsed lines ≤ j) := by
  have h := findLeastRecentlyUsed_spec lines hE
  refine ⟨h.1, h.2.1, ?_⟩
  intro j hj heq
  by_contra hlt
  push_neg at hlt
  have := h.2.2 j hlt
  omega

/-- Witness for C3 on a concrete full two-line set with a recency tie:
    the victim is line 0, the lowest index sharing the maximum. -/
theorem c3_witness :
    findLeastRecentlyUsed [⟨true, 0, false, 5⟩, ⟨true, 1, true, 5⟩] <
      ([⟨true, 0, false, 5⟩, ⟨true, 1, true, 5⟩] : List CacheLine).length :=
  (c3_lru_victim_lowest_index [⟨true, 0, false, 5⟩, ⟨true, 1, true, 5⟩]
    (by decide) (by decide)).1

/-- Counterexample to claim C6 as stated: for the 64-bit unsigned
    address `2^63` (a negative `long`), with `s = 0`, `b = 1`, the code's
    tag `addr >> 1` is the arithmetic shift `-2^62`, not the logical
    shift `2^63 >>> 1 = 2^62` of the unsigned address. -/
theorem c6_counterexample :
    tagOf 0 1 (toSigned64 (2 ^ 63)) ≠ (((2 ^ 63 : Nat) >>> (0 + 1) : Nat) : Int) := by
  decide

/-- Claim C6 amended: for addresses below `2^63` (nonnegative `long`
    values — the only ones `strtol` hands to `updateData` for in-format
    traces) and geometries in the C-defined shift range `s + b ≤ 63`
    (with `s ≤ 30` so that the `int` mask `1 << s` is defined), the
    decoder produces the spec's logical-shift tag and masked set index. -/
theorem c6_decode_nonneg (s b : Nat) (a : Nat) (ha : a < 2 ^ 63) (hsb : s + b ≤ 63)
    (hs : s ≤ 30) :
    tagOf s b (toSigned64 a) = ((a >>> (s + b) : Nat) : Int) ∧
    setIndexOf s b (toSigned64 a) = (a >>> b) % 2 ^ s := by
  have hts : toSigned64 a = (a : Int) := if_pos ha
  have hfd : ∀ n : Nat, sar (a : Int) n = ((a / 2 ^ n : Nat) : Int) := by
    intro n
    have h2 : ((2 : Int) ^ n) = ((2 ^ n : Nat) : Int) := by push_cast; ring
    unfold sar
    rw [h2, Int.fdiv_eq_tdiv (by positivity) (by positivity), ← Int.ofNat_tdiv]
  constructor
  · rw [tagOf, hts, hfd, Nat.shiftRight_eq_div_pow]
  · rw [setIndexOf, hts, hfd, Nat.shiftRight_eq_div_pow]
    rw [show ((2 : Int) ^ s) = ((2 ^ s : Nat) : Int) by push_cast; ring]
    rw [← Int.ofNat_emod]
    exact Int.toNat_ofNat _

/-- Witness for the amended C6 at address 5, `s = 1`, `b = 2`. -/
theorem c6_witness :
    tagOf 1 2 (toSigned64 5) = ((5 >>> (1 + 2) : Nat) : Int) :=
  (c6_decode_nonneg 1 2 5 (by decide) (by decide) (by decide)).1

/-- Claim C7 (code bug): csim.c has no `s + b == 64` special case; at a
    geometry with `s + b = 64` (which `parseArgument` accepts) the decode
    step is the undefined full-width shift, not a branch yielding
    `tag = 0`: the C-definedness-aware decoder returns `none` for every
    address rather than `some (0, _)`. -/
theorem c7_no_full_width_guard : ∀ addr : Int, decodeC 32 32 addr = none :=
  fun _ => rfl

/-! ### Claim C2 -/

theorem hit_index_facts (lines : List CacheLine) (tag : Int) (i : Nat)
    (hhit : scanIdx (hitP tag) lines = some i) :
    i < lines.length ∧ (lineAt lines i).valid = true ∧ (lineAt lines i).tag = tag := by
  rcases scanIdx_some (hitP tag) lines i hhit with ⟨h1, h2, _⟩
  simp only [hitP, Bool.and_eq_true, beq_iff_eq] at h2
  exact ⟨h1, h2.1, h2.2⟩

/-- Claim C2: a Store hit on a clean line marks exactly that line dirty
    and adds one block to `dirty_bytes`; a Store hit on an already dirty
    line, or any Load hit, changes no dirty flag and no dirty-byte
    counter (`dirty_evictions` included). -/
theorem c2_store_hit_dirty (s b : Nat) (σ : SimState) (addr : Int) (op : Char) (i : Nat)
    (hop : op = 'L' ∨ op = 'S')
    (hidx : setIndexOf s b addr < σ.cache.length)
    (hhit : scanIdx (hitP (tagOf s b addr)) (setAt σ (setIndexOf s b addr)) = some i) :
    (∀ j, (lineAt (setAt (updateData s b σ addr op) (setIndexOf s b addr)) j).dirty = true ↔
        ((lineAt (setAt σ (setIndexOf s b addr)) j).dirty = true ∨ (op = 'S' ∧ j = i))) ∧
    (updateData s b σ addr op).stats.dirty_bytes =
      σ.stats.dirty_bytes +
        (if op = 'S' ∧ (lineAt (setAt σ (setIndexOf s b addr)) i).dirty = false
         then 2 ^ b else 0) ∧
    (updateData s b σ addr op).stats.dirty_evictions = σ.stats.dirty_evictions := by
  have hsh := updateData_hit_shape s b σ addr op i (setAt σ (setIndexOf s b addr)) rfl hhit
  rcases hit_index_facts _ _ _ hhit with ⟨hi, hvalid, -⟩
  have hcond : (lineAt (updateLastUsed (setAt σ (setIndexOf s b addr)) i) i).dirty =
      (lineAt (setAt σ (setIndexOf s b addr)) i).dirty := by
    rw [lineAt_updateLastUsed_self _ i hi]
  have hresult : setAt (updateData s b σ addr op) (setIndexOf s b addr) =
      hitLines (setAt σ (setIndexOf s b addr)) i op := by
    rw [hsh]
    exact getD_set_self σ.cache (setIndexOf s b addr) _ [] hidx
  refine ⟨?_, ?_, ?_⟩
  · intro j
    rw [hresult]
    by_cases hj : j < (setAt σ (setIndexOf s b addr)).length
    · by_cases hji : j = i
      · subst hji
        rw [lineAt_hitLines_self _ _ _ hi]
        by_cases hopS : op = 'S'
        · simp [hopS]
        · simp [hopS]
      · rw [lineAt_hitLines_ne _ _ _ _ hj hji]
        simp [hji]
    · have hj' : (setAt σ (setIndexOf s b addr)).length ≤ j := by omega
      rw [lineAt_of_length_le _ _ (by rw [length_hitLines]; exact hj'),
        lineAt_of_length_le _ _ hj']
      have hji : j ≠ i := by omega
      simp [hji]
  · rw [hsh]
    simp only [hcond]
  · rw [hsh]

/-- Witness for C2: a Store hit on the clean line of a one-line cache
    marks it dirty and adds one block (b = 0, one byte). -/
theorem c2_witness :
    (lineAt (setAt (updateData 0 0 ⟨[[⟨true, 0, false, 0⟩]], ⟨0, 0, 0, 0, 0⟩⟩ 0 'S') 0) 0).dirty
        = true ∧
    (updateData 0 0 ⟨[[⟨true, 0, false, 0⟩]], ⟨0, 0, 0, 0, 0⟩⟩ 0 'S').stats.dirty_bytes = 1 := by
  have h := c2_store_hit_dirty 0 0 ⟨[[⟨true, 0, false, 0⟩]], ⟨0, 0, 0, 0, 0⟩⟩ 0 'S' 0
    (Or.inr rfl) (by decide) (by decide)
  constructor
  · exact (h.1 0).mpr (Or.inr ⟨rfl, rfl⟩)
  · have := h.2.1
    rw [this]
    decide

/-! ### Claims C1 and C9 -/

/-- Claim C1: a Load/Store missing in a full set evicts the victim
    selected by `findLeastRecentlyUsed`; the victim slot ends up valid,
    holding the new tag, most recently used (`lastUsed = 0`), and dirty
    exactly when the operation is a Store; exactly one eviction is
    counted; if the victim was dirty, `dirty_evictions` grows by the
    block size and `dirty_bytes` shrinks by it (before the independent
    Store increment, so a dirty-eviction-then-store is a decrement
    followed by an increment). -/
theorem c1_dirty_eviction (s b : Nat) (σ : SimState) (addr : Int) (op : Char)
    (hop : op = 'L' ∨ op = 'S')
    (hidx : setIndexOf s b addr < σ.cache.length)
    (hE : 1 ≤ (setAt σ (setIndexOf s b addr)).length)
    (hmiss : scanIdx (hitP (tagOf s b addr)) (setAt σ (setIndexOf s b addr)) = none)
    (hfull : scanIdx invalidP (setAt σ (setIndexOf s b addr)) = none) :
    lineAt (setAt (updateData s b σ addr op) (setIndexOf s b addr))
        (findLeastRecentlyUsed (setAt σ (setIndexOf s b addr))) =
      ⟨true, tagOf s b addr, decide (op = 'S'), 0⟩ ∧
    (updateData s b σ addr op).stats.evictions = σ.stats.evictions + 1 ∧
    (updateData s b σ addr op).stats.dirty_evictions =
      σ.stats.dirty_evictions +
        (if (lineAt (setAt σ (setIndexOf s b addr))
              (findLeastRecentlyUsed (setAt σ (setIndexOf s b addr)))).dirty = true
         then 2 ^ b else 0) ∧
    (updateData s b σ addr op).stats.dirty_bytes =
      (if (lineAt (setAt σ (setIndexOf s b addr))
            (findLeastRecentlyUsed (setAt σ (setIndexOf s b addr)))).dirty = true
       then σ.stats.dirty_bytes - 2 ^ b else σ.stats.dirty_bytes) +
        (if op = 'S' then 2 ^ b else 0) := by
  have hsh := updateData_evict_shape s b σ addr op (setAt σ (setIndexOf s b addr)) rfl hmiss hfull
  have he : findLeastRecentlyUsed (setAt σ (setIndexOf s b addr)) <
      (setAt σ (setIndexOf s b addr)).length :=
    (findLeastRecentlyUsed_spec _ hE).1
  have hcond : (lineAt ((setAt σ (setIndexOf s b addr)).set
      (findLeastRecentlyUsed (setAt σ (setIndexOf s b addr)))
      { lineAt (setAt σ (setIndexOf s b addr))
          (findLeastRecentlyUsed (setAt σ (setIndexOf s b addr)))
        with valid := true, tag := tagOf s b addr })
      (findLeastRecentlyUsed (setAt σ (setIndexOf s b addr)))).dirty =
      (lineAt (setAt σ (setIndexOf s b addr))
        (findLeastRecentlyUsed (setAt σ (setIndexOf s b addr)))).dirty := by
    rw [lineAt_set_self _ _ _ he]
  have hresult : setAt (updateData s b σ addr op) (setIndexOf s b addr) =
      evictLines (setAt σ (setIndexOf s b addr)) (tagOf s b addr) op := by
    rw [hsh]
    exact getD_set_self σ.cache (setIndexOf s b addr) _ [] hidx
  refine ⟨?_, ?_, ?_, ?_⟩
  · rw [hresult]
    exact lineAt_evictLines_self _ _ _ hE
  · rw [hsh]
  · rw [hsh]
    simp only [hcond]
  · rw [hsh]
    simp only [hcond]

/-- Witness for C1: a Store to tag 1 missing in a full one-line set
    (b = 2) whose only line is dirty with tag 0: one eviction,
    `dirty_evictions` gains a block, `dirty_bytes` drops a block then
    regains it for the store. -/
theorem c1_witness :
    lineAt (setAt (updateData 0 2 ⟨[[⟨true, 0, true, 0⟩]], ⟨0, 0, 0, 4, 0⟩⟩ 4 'S') 0)
        (findLeastRecentlyUsed [⟨true, 0, true, 0⟩]) = ⟨true, 1, true, 0⟩ ∧
    (updateData 0 2 ⟨[[⟨true, 0, true, 0⟩]], ⟨0, 0, 0, 4, 0⟩⟩ 4 'S').stats.evictions = 1 ∧
    (updateData 0 2 ⟨[[⟨true, 0, true, 0⟩]], ⟨0, 0, 0, 4, 0⟩⟩ 4 'S').stats.dirty_evictions = 4 := by
  have h := c1_dirty_eviction 0 2 ⟨[[⟨true, 0, true, 0⟩]], ⟨0, 0, 0, 4, 0⟩⟩ 4 'S'
    (Or.inr rfl) (by decide) (by decide) (by decide) (by decide)
  refine ⟨?_, ?_, ?_⟩
  · have := h.1
    simpa using this
  · simpa using h.2.1
  · have := h.2.2.1
    simpa using this

/-- Claim C9: on a miss in a set holding at least one invalid line, the
    install happens at the lowest-index invalid line `i`; the install
    phase of `updateCache` (lines 228-243) makes that line valid with the
    new tag, `dirty = false`, most recently used, touches no statistics,
    and reports the set as not full; the full access counts no
    eviction. -/
theorem c9_free_slot_install (s b : Nat) (σ : SimState) (addr : Int) (op : Char) (i : Nat)
    (hop : op = 'L' ∨ op = 'S')
    (hidx : setIndexOf s b addr < σ.cache.length)
    (hmiss : scanIdx (hitP (tagOf s b addr)) (setAt σ (setIndexOf s b addr)) = none)
    (hfree : scanIdx invalidP (setAt σ (setIndexOf s b addr)) = some i) :
    ((lineAt (setAt σ (setIndexOf s b addr)) i).valid = false ∧
      ∀ j < i, (lineAt (setAt σ (setIndexOf s b addr)) j).valid = true) ∧
    (∀ st : CsimStats,
      (installPhase b (setAt σ (setIndexOf s b addr)) (tagOf s b addr) st).full = false ∧
      (installPhase b (setAt σ (setIndexOf s b addr)) (tagOf s b addr) st).index = i ∧
      lineAt (installPhase b (setAt σ (setIndexOf s b addr)) (tagOf s b addr) st).lines i =
        ⟨true, tagOf s b addr, false, 0⟩ ∧
      (installPhase b (setAt σ (setIndexOf s b addr)) (tagOf s b addr) st).stats = st) ∧
    (updateData s b σ addr op).stats.evictions = σ.stats.evictions := by
  rcases scanIdx_some invalidP (setAt σ (setIndexOf s b addr)) i hfree with ⟨hi, hp, hlow⟩
  refine ⟨⟨?_, ?_⟩, ?_, ?_⟩
  · simpa [invalidP] using hp
  · intro j hj
    have := hlow j hj
    simpa [invalidP] using this
  · intro st
    simp only [installPhase, hfree]
    refine ⟨by trivial, by trivial, ?_, by trivial⟩
    have h1 : i < ((setAt σ (setIndexOf s b addr)).set i
        { lineAt (setAt σ (setIndexOf s b addr)) i with
          valid := true, tag := tagOf s b addr, dirty := false }).length := by
      simpa using hi
    have hu := lineAt_updateLastUsed_self
      ((setAt σ (setIndexOf s b addr)).set i
        { lineAt (setAt σ (setIndexOf s b addr)) i with
          valid := true, tag := tagOf s b addr, dirty := false }) i h1
    rw [lineAt_set_self _ _ _ hi] at hu
    exact hu
  · have hsh := updateData_free_shape s b σ addr op i (setAt σ (setIndexOf s b addr)) rfl
      hmiss hfree
    rw [hsh]

/-- Witness for C9: a Load missing in a two-line set whose line 0 is
    valid and line 1 invalid installs at index 1 with no eviction. -/
theorem c9_witness :
    (updateData 0 0 ⟨[[⟨true, 0, false, 0⟩, ⟨false, 0, false, 0⟩]], ⟨0, 0, 0, 0, 0⟩⟩ 1 'L').stats.evictions = 0 := by
  have h := c9_free_slot_install 0 0
    ⟨[[⟨true, 0, false, 0⟩, ⟨false, 0, false, 0⟩]], ⟨0, 0, 0, 0, 0⟩⟩ 1 'L' 1
    (Or.inl rfl) (by decide) (by decide) (by decide)
  exact h.2.2

/-! ### Claim C4 -/

theorem recency_package (L old : List CacheLine) (i : Nat) (hlen : i < old.length)
    (hA : lastUsedAt L i = 0)
    (hB : ∀ j < old.length, j ≠ i → lastUsedAt L j = lastUsedAt old j + 1) :
    ∃ k, k < old.length ∧ lastUsedAt L k = 0 ∧
      (∀ j < old.length, j ≠ k → lastUsedAt L j = lastUsedAt old j + 1) ∧
      (∀ j < old.length, (lastUsedAt L j = 0 ↔ j = k)) := by
  refine ⟨i, hlen, hA, hB, fun j hj => ⟨fun h0 => ?_, fun he => he ▸ hA⟩⟩
  by_contra hne
  have := hB j hj hne
  omega

/-- Claim C4: every processed Load/Store access leaves the touched set
    with exactly one line at `lastUsed = 0` (the accessed line) and every
    other line's counter incremented by exactly 1, on every path (hit,
    free-slot install, eviction install). -/
theorem c4_recency_aging (s b : Nat) (σ : SimState) (addr : Int) (op : Char)
    (hop : op = 'L' ∨ op = 'S')
    (hidx : setIndexOf s b addr < σ.cache.length)
    (hE : 1 ≤ (setAt σ (setIndexOf s b addr)).length) :
    ∃ k, k < (setAt σ (setIndexOf s b addr)).length ∧
      lastUsedAt (setAt (updateData s b σ addr op) (setIndexOf s b addr)) k = 0 ∧
      (∀ j < (setAt σ (setIndexOf s b addr)).length, j ≠ k →
        lastUsedAt (setAt (updateData s b σ addr op) (setIndexOf s b addr)) j =
          lastUsedAt (setAt σ (setIndexOf s b addr)) j + 1) ∧
      (∀ j < (setAt σ (setIndexOf s b addr)).length,
        (lastUsedAt (setAt (updateData s b σ addr op) (setIndexOf s b addr)) j = 0 ↔ j = k)) := by
  cases hscan : scanIdx (hitP (tagOf s b addr)) (setAt σ (setIndexOf s b addr)) with
  | some i =>
      have hsh := updateData_hit_shape s b σ addr op i (setAt σ (setIndexOf s b addr)) rfl hscan
      have hi : i < (setAt σ (setIndexOf s b addr)).length :=
        (scanIdx_some _ _ _ hscan).1
      have hresult : setAt (updateData s b σ addr op) (setIndexOf s b addr) =
          hitLines (setAt σ (setIndexOf s b addr)) i op := by
        rw [hsh]
        exact getD_set_self σ.cache (setIndexOf s b addr) _ [] hidx
      rw [hresult]
      refine recency_package _ _ i hi ?_ ?_
      · unfold lastUsedAt
        rw [lineAt_hitLines_self _ _ _ hi]
      · intro j hj hne
        unfold lastUsedAt
        rw [lineAt_hitLines_ne _ _ _ _ hj hne]
  | none =>
      cases hscan2 : scanIdx invalidP (setAt σ (setIndexOf s b addr)) with
      | some i =>
          have hsh := updateData_free_shape s b σ addr op i (setAt σ (setIndexOf s b addr)) rfl
            hscan hscan2
          have hi : i < (setAt σ (setIndexOf s b addr)).length :=
            (scanIdx_some _ _ _ hscan2).1
          have hresult : setAt (updateData s b σ addr op) (setIndexOf s b addr) =
              freeLines (setAt σ (setIndexOf s b addr)) i (tagOf s b addr) op := by
            rw [hsh]
            exact getD_set_self σ.cache (setIndexOf s b addr) _ [] hidx
          rw [hresult]
          refine recency_package _ _ i hi ?_ ?_
          · unfold lastUsedAt
            rw [lineAt_freeLines_self _ _ _ _ hi]
          · intro j hj hne
            unfold lastUsedAt
            rw [lineAt_freeLines_ne _ _ _ _ _ hj hne]
      | none =>
          have hsh := updateData_evict_shape s b σ addr op (setAt σ (setIndexOf s b addr)) rfl
            hscan hscan2
          have he : findLeastRecentlyUsed (setAt σ (setIndexOf s b addr)) <
              (setAt σ (setIndexOf s b addr)).length :=
            (findLeastRecentlyUsed_spec _ hE).1
          have hresult : setAt (updateData s b σ addr op) (setIndexOf s b addr) =
              evictLines (setAt σ (setIndexOf s b addr)) (tagOf s b addr) op := by
            rw [hsh]
            exact getD_set_self σ.cache (setIndexOf s b addr) _ [] hidx
          rw [hresult]
          refine recency_package _ _ (findLeastRecentlyUsed (setAt σ (setIndexOf s b addr)))
            he ?_ ?_
          · unfold lastUsedAt
            rw [lineAt_evictLines_self _ _ _ hE]
          · intro j hj hne
            unfold lastUsedAt
            rw [lineAt_evictLines_ne _ _ _ _ hE hj hne]

/-- Witness for C4: a Load hitting line 0 of a two-line set resets its
    counter to 0 and ages line 1 from 7 to 8. -/
theorem c4_witness :
    ∃ k, k < ([⟨true, 0, false, 3⟩, ⟨true, 1, false, 7⟩] : List CacheLine).length ∧
      lastUsedAt (setAt (updateData 0 0
        ⟨[[⟨true, 0, false, 3⟩, ⟨true, 1, false, 7⟩]], ⟨0, 0, 0, 0, 0⟩⟩ 0 'L') 0) k = 0 ∧
      (∀ j < ([⟨true, 0, false, 3⟩, ⟨true, 1, false, 7⟩] : List CacheLine).length, j ≠ k →
        lastUsedAt (setAt (updateData 0 0
          ⟨[[⟨true, 0, false, 3⟩, ⟨true, 1, false, 7⟩]], ⟨0, 0, 0, 0, 0⟩⟩ 0 'L') 0) j =
          lastUsedAt [⟨true, 0, false, 3⟩, ⟨true, 1, false, 7⟩] j + 1) ∧
      (∀ j < ([⟨true, 0, false, 3⟩, ⟨true, 1, false, 7⟩] : List CacheLine).length,
        (lastUsedAt (setAt (updateData 0 0
          ⟨[[⟨true, 0, false, 3⟩, ⟨true, 1, false, 7⟩]], ⟨0, 0, 0, 0, 0⟩⟩ 0 'L') 0) j = 0 ↔ j = k)) :=
  c4_recency_aging 0 0 ⟨[[⟨true, 0, false, 3⟩, ⟨true, 1, false, 7⟩]], ⟨0, 0, 0, 0, 0⟩⟩ 0 'L'
    (Or.inl rfl) (by decide) (by decide)

/-! ### Claim C10 -/

theorem set_of_length_le {α : Type} (l : List α) (i : Nat) (v : α) (h : l.length ≤ i) :
    l.set i v = l := by
  induction l generalizing i with
  | nil => rfl
  | cons a t ih =>
      cases i with
      | zero => simp at h
      | succ j => simp only [List.set]; rw [ih j (by simpa using h)]

theorem updateData_frame (s b : Nat) (σ : SimState) (addr : Int) (op : Char) (k : Nat)
    (hk : k ≠ setIndexOf s b addr) :
    setAt (updateData s b σ addr op) k = setAt σ k := by
  simp only [updateData, setAt]
  split
  · exact getD_set_ne σ.cache (setIndexOf s b addr) k _ [] hk
  · exact getD_set_ne σ.cache (setIndexOf s b addr) k _ [] hk

theorem updateData_valid_mono (s b : Nat) (σ : SimState) (addr : Int) (op : Char) (k j : Nat)
    (h : (lineAt (setAt σ k) j).valid = true) :
    (lineAt (setAt (updateData s b σ addr op) k) j).valid = true := by
  by_cases hk : k = setIndexOf s b addr
  · subst hk
    have hj : j < (setAt σ (setIndexOf s b addr)).length := by
      by_contra hc
      push_neg at hc
      rw [lineAt_of_length_le _ _ hc] at h
      simp [default] at h
    have hidx : setIndexOf s b addr < σ.cache.length := by
      by_contra hc
      push_neg at hc
      have hz : setAt σ (setIndexOf s b addr) = [] :=
        getD_of_length_le σ.cache (setIndexOf s b addr) [] hc
      rw [hz] at hj
      simp at hj
    have hE : 1 ≤ (setAt σ (setIndexOf s b addr)).length := by omega
    cases hscan : scanIdx (hitP (tagOf s b addr)) (setAt σ (setIndexOf s b addr)) with
    | some i =>
        have hsh := updateData_hit_shape s b σ addr op i (setAt σ (setIndexOf s b addr)) rfl hscan
        have hi : i < (setAt σ (setIndexOf s b addr)).length := (scanIdx_some _ _ _ hscan).1
        have hresult : setAt (updateData s b σ addr op) (setIndexOf s b addr) =
            hitLines (setAt σ (setIndexOf s b addr)) i op := by
          rw [hsh]
          exact getD_set_self σ.cache (setIndexOf s b addr) _ [] hidx
        rw [hresult]
        by_cases hji : j = i
        · subst hji
          rw [lineAt_hitLines_self _ _ _ hi]
          exact h
        · rw [lineAt_hitLines_ne _ _ _ _ hj hji]
          exact h
    | none =>
        cases hscan2 : scanIdx invalidP (setAt σ (setIndexOf s b addr)) with
        | some i =>
            have hsh := updateData_free_shape s b σ addr op i (setAt σ (setIndexOf s b addr))
              rfl hscan hscan2
            have hi : i < (setAt σ (setIndexOf s b addr)).length := (scanIdx_some _ _ _ hscan2).1
            have hresult : setAt (updateData s b σ addr op) (setIndexOf s b addr) =
                freeLines (setAt σ (setIndexOf s b addr)) i (tagOf s b addr) op := by
              rw [hsh]
              exact getD_set_self σ.cache (setIndexOf s b addr) _ [] hidx
            rw [hresult]
            by_cases hji : j = i
            · subst hji
              rw [lineAt_freeLines_self _ _ _ _ hi]
            · rw [lineAt_freeLines_ne _ _ _ _ _ hj hji]
              exact h
        | none =>
            have hsh := updateData_evict_shape s b σ addr op (setAt σ (setIndexOf s b addr))
              rfl hscan hscan2
            have hresult : setAt (updateData s b σ addr op) (setIndexOf s b addr) =
                evictLines (setAt σ (setIndexOf s b addr)) (tagOf s b addr) op := by
              rw [hsh]
              exact getD_set_self σ.cache (setIndexOf s b addr) _ [] hidx
            rw [hresult]
            by_cases hje : j = findLeastRecentlyUsed (setAt σ (setIndexOf s b addr))
            · subst hje
              rw [lineAt_evictLines_self _ _ _ hE]
            · rw [lineAt_evictLines_ne _ _ _ _ hE hj hje]
              exact h
  · rw [updateData_frame s b σ addr op k hk]
    exact h

theorem processRecord_valid_mono (s b : Nat) (σ : SimState) (r : TraceRecord) (k j : Nat)
    (h : (lineAt (setAt σ k) j).valid = true) :
    (lineAt (setAt (processRecord s b σ r) k) j).valid = true := by
  unfold processRecord
  split
  · exact updateData_valid_mono s b σ r.addr r.operation k j h
  · exact h

theorem runTrace_valid_mono (s b : Nat) (σ : SimState) (trace : List TraceRecord) (k j : Nat)
    (h : (lineAt (setAt σ k) j).valid = true) :
    (lineAt (setAt (runTrace s b σ trace) k) j).valid = true := by
  induction trace generalizing σ with
  | nil => exact h
  | cons r t ih =>
      exact ih (processRecord s b σ r) (processRecord_valid_mono s b σ r k j h)

/-- Claim C10: one processed access mutates only the decoded set (every
    line of every other set is unchanged), and a line that is valid
    stays valid for the rest of the run. -/
theorem c10_frame_and_valid_monotone (s b : Nat) :
    (∀ (σ : SimState) (addr : Int) (op : Char) (k : Nat),
        k ≠ setIndexOf s b addr →
        setAt (updateData s b σ addr op) k = setAt σ k) ∧
    (∀ (σ : SimState) (trace : List TraceRecord) (k j : Nat),
        (lineAt (setAt σ k) j).valid = true →
        (lineAt (setAt (runTrace s b σ trace) k) j).valid = true) :=
  ⟨fun σ addr op k hk => updateData_frame s b σ addr op k hk,
   fun σ trace k j h => runTrace_valid_mono s b σ trace k j h⟩

/-- Witness for C10 on a concrete two-set cache: a Store to set 1 leaves
    set 0 untouched, and the valid line of set 0 stays valid after a
    two-record trace. -/
theorem c10_witness :
    setAt (updateData 1 0 ⟨[[⟨true, 0, false, 0⟩], [⟨false, 0, false, 0⟩]], ⟨0, 0, 0, 0, 0⟩⟩ 1 'S') 0
        = [⟨true, 0, false, 0⟩] ∧
    (lineAt (setAt (runTrace 1 0 ⟨[[⟨true, 0, false, 0⟩], [⟨false, 0, false, 0⟩]], ⟨0, 0, 0, 0, 0⟩⟩
        [⟨'S', 1, 1⟩, ⟨'L', 0, 1⟩]) 0) 0).valid = true := by
  constructor
  · have h := (c10_frame_and_valid_monotone 1 0).1
      ⟨[[⟨true, 0, false, 0⟩], [⟨false, 0, false, 0⟩]], ⟨0, 0, 0, 0, 0⟩⟩ 1 'S' 0 (by decide)
    rw [h]
    decide
  · exact (c10_frame_and_valid_monotone 1 0).2
      ⟨[[⟨true, 0, false, 0⟩], [⟨false, 0, false, 0⟩]], ⟨0, 0, 0, 0, 0⟩⟩
      [⟨'S', 1, 1⟩, ⟨'L', 0, 1⟩] 0 0 (by decide)

/-! ### Claim C8 -/

theorem updateData_hit_or_miss (s b : Nat) (σ : SimState) (addr : Int) (op : Char) :
    ((updateData s b σ addr op).stats.hits = σ.stats.hits + 1 ∧
     (updateData s b σ addr op).stats.misses = σ.stats.misses) ∨
    ((updateData s b σ addr op).stats.hits = σ.stats.hits ∧
     (updateData s b σ addr op).stats.misses = σ.stats.misses + 1) := by
  cases hscan : scanIdx (hitP (tagOf s b addr)) (setAt σ (setIndexOf s b addr)) with
  | some i =>
      left
      rw [updateData_hit_shape s b σ addr op i (setAt σ (setIndexOf s b addr)) rfl hscan]
      exact ⟨rfl, rfl⟩
  | none =>
      right
      cases hscan2 : scanIdx invalidP (setAt σ (setIndexOf s b addr)) with
      | some i =>
          rw [updateData_free_shape s b σ addr op i (setAt σ (setIndexOf s b addr)) rfl
            hscan hscan2]
          exact ⟨rfl, rfl⟩
      | none =>
          rw [updateData_evict_shape s b σ addr op (setAt σ (setIndexOf s b addr)) rfl
            hscan hscan2]
          exact ⟨rfl, rfl⟩

theorem runTrace_count (s b : Nat) (trace : List TraceRecord) (σ : SimState) :
    (runTrace s b σ trace).stats.hits + (runTrace s b σ trace).stats.misses =
      σ.stats.hits + σ.stats.misses + countLS trace := by
  induction trace generalizing σ with
  | nil => simp [runTrace, countLS]
  | cons r t ih =>
      have hstep : runTrace s b σ (r :: t) = runTrace s b (processRecord s b σ r) t := rfl
      rw [hstep, ih (processRecord s b σ r)]
      have hcount : countLS (r :: t) =
          (if (r.operation == 'L' || r.operation == 'S') = true then 1 else 0) + countLS t := by
        simp [countLS, List.countP_cons]
        split <;> omega
      rw [hcount]
      by_cases hLS : (r.operation == 'L' || r.operation == 'S') = true
      · have hproc : processRecord s b σ r = updateData s b σ r.addr r.operation := by
          unfold processRecord
          rw [if_pos (by simpa using hLS)]
        rw [hproc]
        rcases updateData_hit_or_miss s b σ r.addr r.operation with ⟨h1, h2⟩ | ⟨h1, h2⟩ <;>
          rw [h1, h2] <;> simp [hLS] <;> omega
      · have hproc : processRecord s b σ r = σ := by
          unfold processRecord
          rw [if_neg (by simpa using hLS)]
        rw [hproc]
        simp [hLS]

/-- Claim C8: over any trace started from the initial state,
    `hits + misses` equals the number of Load/Store records; each
    processed Load/Store record increments exactly one of `hits` and
    `misses`; a record with any other operation tag changes neither the
    statistics nor the cache. -/
theorem c8_stats_accounting (s E b : Nat) (trace : List TraceRecord) :
    ((runTrace s b (initState s E) trace).stats.hits +
        (runTrace s b (initState s E) trace).stats.misses = countLS trace) ∧
    (∀ (σ : SimState) (r : TraceRecord), r.operation = 'L' ∨ r.operation = 'S' →
      ((processRecord s b σ r).stats.hits = σ.stats.hits + 1 ∧
       (processRecord s b σ r).stats.misses = σ.stats.misses) ∨
      ((processRecord s b σ r).stats.hits = σ.stats.hits ∧
       (processRecord s b σ r).stats.misses = σ.stats.misses + 1)) ∧
    (∀ (σ : SimState) (r : TraceRecord), ¬(r.operation = 'L' ∨ r.operation = 'S') →
      processRecord s b σ r = σ) := by
  refine ⟨?_, ?_, ?_⟩
  · have := runTrace_count s b trace (initState s E)
    simpa [initState] using this
  · intro σ r hLS
    have hproc : processRecord s b σ r = updateData s b σ r.addr r.operation := by
      unfold processRecord
      rw [if_pos hLS]
    rw [hproc]
    exact updateData_hit_or_miss s b σ r.addr r.operation
  · intro σ r hLS
    unfold processRecord
    rw [if_neg hLS]

/-- Witness for C8 on the spec's scenario 1 (`s=0, E=1, b=0`; two Loads
    to address 0): two Load/Store records, and the per-record clauses at
    a concrete state and record. -/
theorem c8_witness :
    ((runTrace 0 0 (initState 0 1) [⟨'L', 0, 1⟩, ⟨'L', 0, 1⟩]).stats.hits +
        (runTrace 0 0 (initState 0 1) [⟨'L', 0, 1⟩, ⟨'L', 0, 1⟩]).stats.misses =
        countLS [⟨'L', 0, 1⟩, ⟨'L', 0, 1⟩]) ∧
    processRecord 0 0 (initState 0 1) ⟨'M', 0, 1⟩ = initState 0 1 := by
  constructor
  · exact (c8_stats_accounting 0 1 0 [⟨'L', 0, 1⟩, ⟨'L', 0, 1⟩]).1
  · exact (c8_stats_accounting 0 1 0 [⟨'L', 0, 1⟩, ⟨'L', 0, 1⟩]).2.2 (initState 0 1) ⟨'M', 0, 1⟩
      (by decide)

/-! ### Claim C5 -/

theorem mem_set_cases {α : Type} (l : List α) (i : Nat) (v x : α) (h : x ∈ l.set i v) :
    x ∈ l ∨ x = v := by
  induction l generalizing i with
  | nil => simp at h
  | cons a t ih =>
      cases i with
      | zero =>
          simp only [List.set] at h
          rcases List.mem_cons.mp h with h1 | h1
          · exact Or.inr h1
          · exact Or.inl (List.mem_cons_of_mem a h1)
      | succ j =>
          simp only [List.set] at h
          rcases List.mem_cons.mp h with h1 | h1
          · exact Or.inl (h1 ▸ List.mem_cons_self a t)
          · rcases ih j h1 with h2 | h2
            · exact Or.inl (List.mem_cons_of_mem a h2)
            · exact Or.inr h2

/-- The well-formedness and dirty-byte invariant of a simulator state:
    `2^s` sets of `E` lines, and `stats.dirty_bytes` equal to the total
    dirty bytes held by (valid, dirty) lines. -/
def WFInv (sN E b : Nat) (σ : SimState) : Prop :=
  σ.cache.length = sN ∧ (∀ ls ∈ σ.cache, ls.length = E) ∧
  σ.stats.dirty_bytes = cacheDirtyBytes b σ.cache

theorem initState_WFInv (s E b : Nat) : WFInv (2 ^ s) E b (initState s E) := by
  refine ⟨by simp [initState, initCache], ?_, ?_⟩
  · intro ls hls
    simp only [initState, initCache] at hls
    rw [List.eq_of_mem_replicate hls]
    simp
  · show (0 : Nat) = cacheDirtyBytes b (initCache s E)
    simp [initCache, cacheDirtyBytes, setDirtyBytes, lineDirtyBytes, initLine]

theorem updateData_WFInv (s E b : Nat) (σ : SimState) (addr : Int) (op : Char)
    (hE : 1 ≤ E) (h : WFInv (2 ^ s) E b σ) :
    WFInv (2 ^ s) E b (updateData s b σ addr op) := by
  obtain ⟨hlen, hsets, hdb⟩ := h
  have hidx : setIndexOf s b addr < σ.cache.length := by
    rw [hlen]; exact setIndexOf_lt s b addr
  have hmem : σ.cache.getD (setIndexOf s b addr) [] ∈ σ.cache := getD_mem _ _ _ hidx
  have hElen : (σ.cache.getD (setIndexOf s b addr) []).length = E := hsets _ hmem
  have hE1 : 1 ≤ (σ.cache.getD (setIndexOf s b addr) []).length := by rw [hElen]; omega
  cases hscan : scanIdx (hitP (tagOf s b addr)) (σ.cache.getD (setIndexOf s b addr) []) with
  | some i =>
      have hsh := updateData_hit_shape s b σ addr op i (σ.cache.getD (setIndexOf s b addr) [])
        rfl hscan
      rcases hit_index_facts _ _ _ hscan with ⟨hi, hvalid, -⟩
      have hcond : (lineAt (updateLastUsed (σ.cache.getD (setIndexOf s b addr) []) i) i).dirty =
          (lineAt (σ.cache.getD (setIndexOf s b addr) []) i).dirty := by
        rw [lineAt_updateLastUsed_self _ i hi]
      have hdelta := setDirtyBytes_hitLines b (σ.cache.getD (setIndexOf s b addr) []) i op
        hi hvalid
      have hsum := sum_map_set (setDirtyBytes b) σ.cache (setIndexOf s b addr)
        (hitLines (σ.cache.getD (setIndexOf s b addr) []) i op) [] hidx
      rw [hsh]
      refine ⟨by simpa using hlen, ?_, ?_⟩
      · intro ls hls
        rcases mem_set_cases _ _ _ _ hls with h1 | h1
        · exact hsets ls h1
        · rw [h1, length_hitLines, hElen]
      · show σ.stats.dirty_bytes + _ = cacheDirtyBytes b (σ.cache.set _ _)
        simp only [hcond]
        simp only [cacheDirtyBytes, setDirtyBytes] at hsum hdb hdelta ⊢
        by_cases hc : op = 'S' ∧ (lineAt (σ.cache.getD (setIndexOf s b addr) []) i).dirty = false
        · rw [if_pos hc]
          rw [if_pos hc] at hdelta
          omega
        · rw [if_neg hc]
          rw [if_neg hc] at hdelta
          omega
  | none =>
      cases hscan2 : scanIdx invalidP (σ.cache.getD (setIndexOf s b addr) []) with
      | some i =>
          have hsh := updateData_free_shape s b σ addr op i
            (σ.cache.getD (setIndexOf s b addr) []) rfl hscan hscan2
          rcases scanIdx_some invalidP _ i hscan2 with ⟨hi, hp, -⟩
          have hinv : (lineAt (σ.cache.getD (setIndexOf s b addr) []) i).valid = false := by
            simpa [invalidP] using hp
          have hdelta := setDirtyBytes_freeLines b (σ.cache.getD (setIndexOf s b addr) []) i
            (tagOf s b addr) op hi hinv
          have hsum := sum_map_set (setDirtyBytes b) σ.cache (setIndexOf s b addr)
            (freeLines (σ.cache.getD (setIndexOf s b addr) []) i (tagOf s b addr) op) [] hidx
          rw [hsh]
          refine ⟨by simpa using hlen, ?_, ?_⟩
          · intro ls hls
            rcases mem_set_cases _ _ _ _ hls with h1 | h1
            · exact hsets ls h1
            · rw [h1, length_freeLines, hElen]
          · show σ.stats.dirty_bytes + _ = cacheDirtyBytes b (σ.cache.set _ _)
            simp only [cacheDirtyBytes, setDirtyBytes] at hsum hdb hdelta ⊢
            by_cases hop : op = 'S'
            · rw [if_pos hop]
              rw [if_pos hop] at hdelta
              omega
            · rw [if_neg hop]
              rw [if_neg hop] at hdelta
              omega
      | none =>
          have hsh := updateData_evict_shape s b σ addr op
            (σ.cache.getD (setIndexOf s b addr) []) rfl hscan hscan2
          have he : findLeastRecentlyUsed (σ.cache.getD (setIndexOf s b addr) []) <
              (σ.cache.getD (setIndexOf s b addr) []).length :=
            (findLeastRecentlyUsed_spec _ hE1).1
          have hvalid : (lineAt (σ.cache.getD (setIndexOf s b addr) [])
              (findLeastRecentlyUsed (σ.cache.getD (setIndexOf s b addr) []))).valid = true :=
            all_valid_of_full _ hscan2 _ he
          have hcond : (lineAt ((σ.cache.getD (setIndexOf s b addr) []).set
              (findLeastRecentlyUsed (σ.cache.getD (setIndexOf s b addr) []))
              { lineAt (σ.cache.getD (setIndexOf s b addr) [])
                  (findLeastRecentlyUsed (σ.cache.getD (setIndexOf s b addr) []))
                with valid := true, tag := tagOf s b addr })
              (findLeastRecentlyUsed (σ.cache.getD (setIndexOf s b addr) []))).dirty =
              (lineAt (σ.cache.getD (setIndexOf s b addr) [])
                (findLeastRecentlyUsed (σ.cache.getD (setIndexOf s b addr) []))).dirty := by
            rw [lineAt_set_self _ _ _ he]
          have hdelta := setDirtyBytes_evictLines b (σ.cache.getD (setIndexOf s b addr) [])
            (tagOf s b addr) op hE1 hvalid
          have hsum := sum_map_set (setDirtyBytes b) σ.cache (setIndexOf s b addr)
            (evictLines (σ.cache.getD (setIndexOf s b addr) []) (tagOf s b addr) op) [] hidx
          rw [hsh]
          refine ⟨by simpa using hlen, ?_, ?_⟩
          · intro ls hls
            rcases mem_set_cases _ _ _ _ hls with h1 | h1
            · exact hsets ls h1
            · rw [h1, length_evictLines _ _ _ hE1, hElen]
          · show (if _ then σ.stats.dirty_bytes - 2 ^ b else σ.stats.dirty_bytes) + _ =
              cacheDirtyBytes b (σ.cache.set _ _)
            simp only [hcond]
            by_cases hd : (lineAt (σ.cache.getD (setIndexOf s b addr) [])
                (findLeastRecentlyUsed (σ.cache.getD (setIndexOf s b addr) []))).dirty = true
            · have hge := dirty_victim_le_setDirtyBytes b
                (σ.cache.getD (setIndexOf s b addr) []) hE1 hvalid hd
              have hsetle : setDirtyBytes b (σ.cache.getD (setIndexOf s b addr) []) ≤
                  (σ.cache.map (setDirtyBytes b)).sum :=
                getD_le_sum (setDirtyBytes b) σ.cache (setIndexOf s b addr) [] hidx
              rw [if_pos hd]
              rw [if_pos hd] at hdelta
              simp only [cacheDirtyBytes, setDirtyBytes] at hsum hdb hdelta hge hsetle ⊢
              by_cases hop : op = 'S'
              · rw [if_pos hop]
                rw [if_pos hop] at hdelta
                omega
              · rw [if_neg hop]
                rw [if_neg hop] at hdelta
                omega
            · rw [if_neg hd]
              rw [if_neg hd] at hdelta
              simp only [cacheDirtyBytes, setDirtyBytes] at hsum hdb hdelta ⊢
              by_cases hop : op = 'S'
              · rw [if_pos hop]
                rw [if_pos hop] at hdelta
                omega
              · rw [if_neg hop]
                rw [if_neg hop] at hdelta
                omega

theorem runTrace_WFInv (s E b : Nat) (trace : List TraceRecord) (σ : SimState)
    (hE : 1 ≤ E) (h : WFInv (2 ^ s) E b σ) :
    WFInv (2 ^ s) E b (runTrace s b σ trace) := by
  induction trace generalizing σ with
  | nil => exact h
  | cons r t ih =>
      refine ih (processRecord s b σ r) ?_
      unfold processRecord
      split
      · exact updateData_WFInv s E b σ r.addr r.operation hE h
      · exact h

theorem cacheDirtyBytes_le (b E : Nat) (cache : List (List CacheLine))
    (hset : ∀ ls ∈ cache, ls.length = E) :
    cacheDirtyBytes b cache ≤ cache.length * (E * 2 ^ b) := by
  unfold cacheDirtyBytes
  apply sum_map_le_length_mul
  intro ls hls
  unfold setDirtyBytes
  calc (ls.map (lineDirtyBytes b)).sum ≤ ls.length * 2 ^ b :=
        sum_map_le_length_mul _ _ _ (fun x _ => lineDirtyBytes_le b x)
    _ = E * 2 ^ b := by rw [hset ls hls]

/-- Claim C5: after any trace from the all-invalid, all-clean initial
    cache (with `E ≥ 1`, as `parseArgument` guarantees), `dirty_bytes`
    equals the sum of the block size over all valid dirty lines, and is
    bounded by the capacity `E * 2^s * 2^b` (the lower bound 0 is
    inherent to the unsigned counter).  Every intermediate point of a run
    is the final state of the corresponding trace prefix, so this holds
    at every point. -/
theorem c5_dirty_bytes_invariant (s E b : Nat) (hE : 1 ≤ E) (trace : List TraceRecord) :
    (runTrace s b (initState s E) trace).stats.dirty_bytes =
      cacheDirtyBytes b (runTrace s b (initState s E) trace).cache ∧
    (runTrace s b (initState s E) trace).stats.dirty_bytes ≤ E * 2 ^ s * 2 ^ b := by
  obtain ⟨hlen, hsets, hdb⟩ :=
    runTrace_WFInv s E b trace (initState s E) hE (initState_WFInv s E b)
  refine ⟨hdb, ?_⟩
  rw [hdb]
  have hle := cacheDirtyBytes_le b E (runTrace s b (initState s E) trace).cache hsets
  rw [hlen] at hle
  calc cacheDirtyBytes b (runTrace s b (initState s E) trace).cache
      ≤ 2 ^ s * (E * 2 ^ b) := hle
    _ = E * 2 ^ s * 2 ^ b := by ring

/-- Witness for C5 on the spec's scenario 4 prefix (`s=0, E=1, b=2`, one
    Store): `dirty_bytes` equals the scan-derived total. -/
theorem c5_witness :
    (runTrace 0 2 (initState 0 1) [⟨'S', 0, 1⟩]).stats.dirty_bytes =
      cacheDirtyBytes 2 (runTrace 0 2 (initState 0 1) [⟨'S', 0, 1⟩]).cache :=
  (c5_dirty_bytes_invariant 0 1 2 (by decide) [⟨'S', 0, 1⟩]).1
